import Mathlib

/-!
Verification of the spyglass indexing/search backend
(`src/src-tauri/src/lib.rs`) against its natural-language specification.

The Rust source is shallowly embedded below:
* strings are Lean `String`s; Rust's `str::to_lowercase`, `str::contains`,
  `str::starts_with` are modelled by structural functions on the
  underlying character lists (`strLower`, `strContains`, `strStartsWith`);
  `str::len` (a byte count) is modelled by `String.utf8ByteSize`;
* the filesystem is an inductive tree `FsNode`; `fs::read_dir` on a
  directory yields its child list in tree order;
* the mutexed fields of `IndexState` become explicit state records;
  lock acquisition is modelled as always succeeding (lock poisoning only
  arises after a panic, which the embedding does not model);
* `Vec::push` is list append, `slice::sort_by` (a stable sort) is the
  stable insertion sort `sortScoredDesc`, `Iterator::take(100)` is
  `List.take 100`.
-/

/-- One catalogued filesystem node, `IndexEntry` in the source. -/
structure IndexEntry where
  name : String
  path : String
  is_directory : Bool
  parent_folder : String
deriving Repr, DecidableEq

/-- Scan status record, `IndexProgress` in the source. -/
structure IndexProgress where
  total_folders : Nat
  indexed_folders : Nat
  total_files : Nat
  current_folder : String
  is_complete : Bool
deriving Repr, DecidableEq

/-- `IndexProgress::default()`. -/
def IndexProgress.init : IndexProgress :=
  { total_folders := 0, indexed_folders := 0, total_files := 0,
    current_folder := "", is_complete := false }

/-- Model of Rust `str::to_lowercase` (per-character lowering; the source
only ever compares ASCII-lowered names, where the two agree). -/
def strLower (s : String) : String := ⟨s.data.map Char.toLower⟩

/-- Substring check on character lists, model of Rust `str::contains`. -/
def listContainsSub (hay needle : List Char) : Bool :=
  needle.isPrefixOf hay ||
    match hay with
    | [] => false
    | _ :: t => listContainsSub t needle

/-- Model of Rust `str::contains` (substring containment). -/
def strContains (hay needle : String) : Bool := listContainsSub hay.data needle.data

/-- Model of Rust `str::starts_with`. -/
def strStartsWith (hay pre : String) : Bool := pre.data.isPrefixOf hay.data

/-- Characters of the final path component (scanning the reversed path). -/
def revBaseChars : List Char → List Char
  | [] => []
  | c :: t => if c = '/' then [] else c :: revBaseChars t

/-- Model of `path.file_name().map(to_string).unwrap_or("~")` as used by
`index_directory` (lib.rs lines 222-224): the final path component, or
the sentinel `"~"` when there is none. -/
def baseNameOr (p : String) : String :=
  let rev := revBaseChars p.data.reverse
  if rev.isEmpty then "~" else ⟨rev.reverse⟩

/-- The fixed exclusion list of `index_directory` (lib.rs line 262). -/
def excludedNames : List String :=
  ["node_modules", "target", ".git", "dist", "build", ".next", "vendor",
   "__pycache__", ".venv", "venv", ".cargo", "Library", ".Trash", "Applications"]

/-! ## Search (`search_index`, lib.rs lines 404-502) -/

/-- The per-entry score of `search_index` (loop bodies at lines 431-459 and
467-489; both branches compute this same expression, the cached branch
reading `nameLower` from the side table, the uncached one recomputing it).
`ql`, `qd`, `qu` are `query_lower`, `query_dash`, `query_underscore`. -/
def scoreName (nameLower : String) (e : IndexEntry) (ql qd qu : String) : Int :=
  let s1 : Int :=
    if nameLower = ql then 1000
    else if strStartsWith nameLower ql then 500
    else if strContains nameLower qd || strContains nameLower qu then 300
    else 0
  let s2 : Int := if e.is_directory then s1 + 200 else s1
  let s3 : Int := s2 + (50 - min (e.name.utf8ByteSize : Int) 50)
  if strContains e.path "/projects/" then s3 + 100 else s3

/-- The cached branch of `search_index` (lib.rs lines 426-461): iterate
entries paired with the precomputed lowercase table, keep matches with
their score. -/
def searchScoredCached (entries : List IndexEntry) (lowerNames : List String)
    (ql qd qu : String) : List (Int × IndexEntry) :=
  (entries.zip lowerNames).filterMap fun p =>
    if strContains p.2 ql then some (scoreName p.2 p.1 ql qd qu, p.1) else none

/-- The uncached branch of `search_index` (lib.rs lines 463-491):
lowercase each name at query time. -/
def searchScoredUncached (entries : List IndexEntry)
    (ql qd qu : String) : List (Int × IndexEntry) :=
  entries.filterMap fun e =>
    if strContains (strLower e.name) ql then
      some (scoreName (strLower e.name) e ql qd qu, e)
    else none

/-- Insert into a descending-by-score list, after the strictly-greater
prefix and before any equal-scored element (the later-inserted element of
an equal pair keeps its later position, as in a stable sort). -/
def insertScored (x : Int × IndexEntry) : List (Int × IndexEntry) → List (Int × IndexEntry)
  | [] => [x]
  | y :: ys => if y.1 ≤ x.1 then x :: y :: ys else y :: insertScored x ys

/-- Model of `scored.sort_by(|a, b| b.0.cmp(&a.0))` (lib.rs line 495):
Rust's `sort_by` is a stable sort, so it is modelled by the stable
insertion sort that orders by score descending and keeps the original
relative order of equal scores. -/
def sortScoredDesc : List (Int × IndexEntry) → List (Int × IndexEntry)
  | [] => []
  | x :: xs => insertScored x (sortScoredDesc xs)

/-- The scored-match list of `search_index`: dispatch between the cached
and uncached branch on whether the lowercase table has exactly one entry
per index entry (lib.rs line 421, `use_lower`). -/
def searchScored (entries : List IndexEntry) (lower_names : List String)
    (ql qd qu : String) : List (Int × IndexEntry) :=
  if lower_names.length = entries.length then
    searchScoredCached entries lower_names ql qd qu
  else
    searchScoredUncached entries ql qd qu

/-- `search_index` (lib.rs lines 404-502): empty query short-circuits to
empty; otherwise score the matches, sort by score descending (stable),
return the first 100 entries with scores discarded. -/
def search_index (entries : List IndexEntry) (lower_names : List String)
    (query : String) : List IndexEntry :=
  if query.data.isEmpty then []
  else
    let ql := strLower query
    let qd := "-" ++ ql
    let qu := "_" ++ ql
    (((sortScoredDesc (searchScored entries lower_names ql qd qu)).take 100).map
      Prod.snd)

/-! ## Traversal (`index_directory`, lib.rs lines 210-281) -/

/-- A filesystem node: the abstract tree that `fs::read_dir` reads from.
Directory listings are returned in tree order. -/
inductive FsNode where
  | file (name : String)
  | dir (name : String) (children : List FsNode)
deriving Repr

/-- The base name of a node (`entry.file_name()`). -/
def FsNode.name : FsNode → String
  | .file n => n
  | .dir n _ => n

/-- Whether the node is a directory (`file_path.is_dir()`). -/
def FsNode.isDir : FsNode → Bool
  | .file _ => false
  | .dir _ _ => true

mutual
/-- Size of a node, for termination of the traversal. -/
def nodeSize : FsNode → Nat
  | .file _ => 1
  | .dir _ cs => 1 + listSize cs
/-- Total size of a list of nodes. -/
def listSize : List FsNode → Nat
  | [] => 0
  | c :: cs => nodeSize c + listSize cs
end

/-- The mutable state threaded through a scan: the working entry and
lowercase-name buffers (`new_entries`, `new_lower_names` in
`start_indexing`) and the shared progress record behind `progress_arc`. -/
structure ScanState where
  entries : List IndexEntry
  lower_names : List String
  progress : IndexProgress
deriving Repr, DecidableEq

/-- The child loop of `index_directory` (lib.rs lines 233-269): for each
child of the directory at `path`, skip it when `skip_hidden` and its name
starts with a dot; otherwise push its entry and lowercase name, refresh
`total_files` every 100th entry, and when it is a non-excluded directory
bump `total_folders` and queue `(child path, child listing)` for descent.
Returns the updated state and the queued subdirectories in listing order. -/
def processChildren (path parent : String) (skipHidden : Bool) :
    List FsNode → ScanState → ScanState × List (String × List FsNode)
  | [], s => (s, [])
  | c :: rest, s =>
    let name := c.name
    if skipHidden && strStartsWith name "." then
      processChildren path parent skipHidden rest s
    else
      let filePath := path ++ "/" ++ name
      let s1 : ScanState :=
        { s with
          entries := s.entries ++
            [{ name := name, path := filePath, is_directory := c.isDir,
               parent_folder := parent }],
          lower_names := s.lower_names ++ [strLower name] }
      let s2 : ScanState :=
        if s1.entries.length % 100 = 0 then
          { s1 with progress := { s1.progress with total_files := s1.entries.length } }
        else s1
      match c with
      | .file _ => processChildren path parent skipHidden rest s2
      | .dir _ cs =>
        if excludedNames.contains name then
          processChildren path parent skipHidden rest s2
        else
          let s3 : ScanState :=
            { s2 with progress :=
                { s2.progress with total_folders := s2.progress.total_folders + 1 } }
          let pr := processChildren path parent skipHidden rest s3
          (pr.1, (filePath, cs) :: pr.2)

/-- Weight of a pending work item: size of the directory listing plus one. -/
def pairsW : List (String × List FsNode) → Nat
  | [] => 0
  | (_, cs) :: rest => (1 + listSize cs) + pairsW rest

theorem nodeSize_pos (n : FsNode) : 0 < nodeSize n := by
  cases n <;> simp [nodeSize]

theorem pairsW_append (a b : List (String × List FsNode)) :
    pairsW (a ++ b) = pairsW a + pairsW b := by
  induction a with
  | nil => simp [pairsW]
  | cons h t ih => cases h; simp [pairsW, ih]; omega

/-- The subdirectories queued by the child loop weigh no more than the
listing they came from. -/
theorem pairsW_processChildren (path parent : String) (skipHidden : Bool)
    (cs : List FsNode) (s : ScanState) :
    pairsW (processChildren path parent skipHidden cs s).2 ≤ listSize cs := by
  induction cs generalizing s with
  | nil => simp [processChildren, pairsW]
  | cons c rest ih =>
    cases c with
    | file n =>
      simp only [processChildren, FsNode.name, listSize, nodeSize]
      split
      · exact le_trans (ih s) (by omega)
      · exact le_trans (ih _) (by omega)
    | dir n cs2 =>
      simp only [processChildren, FsNode.name, listSize, nodeSize]
      split
      · exact le_trans (ih s) (by omega)
      · split
        · exact le_trans (ih _) (by omega)
        · simp only [pairsW]
          exact Nat.add_le_add_left (ih _) _

/-- The recursion of `index_directory` (lib.rs lines 210-281) in explicit
work-list form: pop the next directory, update `current_folder`, run the
child loop, bump `indexed_folders` and refresh `total_files`
(lib.rs lines 272-275), then push the queued subdirectories ahead of the
remaining work — the exact depth-first order of the source's recursion
(all of a directory's child entries precede every descendant entry). -/
def indexLoop (skipHidden : Bool) :
    List (String × List FsNode) → ScanState → ScanState
  | [], s => s
  | (path, children) :: rest, s =>
    let parent := baseNameOr path
    let s1 : ScanState :=
      { s with progress := { s.progress with current_folder := path } }
    let pr := processChildren path parent skipHidden children s1
    let s2 := pr.1
    let s3 : ScanState :=
      { s2 with progress :=
          { s2.progress with
            indexed_folders := s2.progress.indexed_folders + 1,
            total_files := s2.entries.length } }
    indexLoop skipHidden (pr.2 ++ rest) s3
termination_by wl => pairsW wl
decreasing_by
  simp only [pairsW, pairsW_append]
  exact Nat.lt_of_le_of_lt
    (Nat.add_le_add_right (pairsW_processChildren _ _ _ _ _) _)
    (by omega)

/-- `index_directory` (lib.rs lines 210-281) applied to the directory at
`path` whose listing is `children`. -/
def index_directory (path : String) (children : List FsNode)
    (skipHidden : Bool) (s : ScanState) : ScanState :=
  indexLoop skipHidden [(path, children)] s

/-! ## Process-wide state and commands -/

/-- The process-wide `IndexState` behind the four mutexes
(lib.rs lines 9-15). -/
structure AppState where
  entries : List IndexEntry
  lower_names : List String
  progress : IndexProgress
  is_indexing : Bool
deriving Repr, DecidableEq

/-- `IndexState::default()`: empty index, zeroed progress, not indexing. -/
def AppState.init : AppState :=
  { entries := [], lower_names := [], progress := IndexProgress.init,
    is_indexing := false }

/-- The synchronous part of `start_indexing` (lib.rs lines 284-311, 313,
393): returns the command result, the state as left when the command
returns, and whether a background scan thread was spawned.  The already-
indexing early return leaves the state untouched; otherwise the flag is
set to `true` before the home directory is resolved, and a missing home
directory returns the error with no thread spawned. -/
def start_indexing (home_dir : Option String) (st : AppState) :
    Except String Unit × AppState × Bool :=
  if st.is_indexing then (Except.ok (), st, false)
  else
    let st1 : AppState := { st with is_indexing := true }
    match home_dir with
    | none => (Except.error "Could not find home directory", st1, false)
    | some _ =>
      let st2 : AppState :=
        { st1 with progress := { st1.progress with total_folders := max 1 1 } }
      (Except.ok (), st2, true)

/-- What the `load_saved_index` command (lib.rs lines 505-538) can find
on disk: no file, an unreadable file, a file that fails to parse as
`Vec<IndexEntry>`, or a well-formed serialized entry list. -/
inductive DiskFile where
  | missing
  | unreadable
  | corrupt
  | good (entries : List IndexEntry)

/-- `load_saved_index` (lib.rs lines 505-538): on a missing, unreadable or
unparsable file every failure arm falls through to `false` with the state
untouched; on success the entries and recomputed lowercase table replace
the in-memory index, progress is refreshed, and the command returns
`true`. -/
def load_saved_index (f : DiskFile) (st : AppState) : Bool × AppState :=
  match f with
  | .missing => (false, st)
  | .unreadable => (false, st)
  | .corrupt => (false, st)
  | .good entries =>
    let lower_names := entries.map fun e => strLower e.name
    let count := entries.length
    (true,
      { st with
        entries := entries,
        lower_names := lower_names,
        progress := { st.progress with total_files := count, is_complete := true } })

/-! ## Lemmas about the stable descending sort -/

theorem mem_insertScored (x a : Int × IndexEntry) (l : List (Int × IndexEntry)) :
    a ∈ insertScored x l ↔ a = x ∨ a ∈ l := by
  induction l with
  | nil => simp [insertScored]
  | cons y ys ih =>
    simp only [insertScored]
    split
    · simp
    · simp [ih]
      tauto

theorem mem_sortScoredDesc (a : Int × IndexEntry) (l : List (Int × IndexEntry)) :
    a ∈ sortScoredDesc l ↔ a ∈ l := by
  induction l with
  | nil => simp [sortScoredDesc]
  | cons x xs ih => simp [sortScoredDesc, mem_insertScored, ih]

theorem pairwise_insertScored (x : Int × IndexEntry) (l : List (Int × IndexEntry))
    (h : l.Pairwise fun a b => b.1 ≤ a.1) :
    (insertScored x l).Pairwise fun a b => b.1 ≤ a.1 := by
  induction l with
  | nil => simp [insertScored]
  | cons y ys ih =>
    simp only [insertScored]
    rcases List.pairwise_cons.mp h with ⟨hy, hys⟩
    split
    · rename_i hyx
      refine List.pairwise_cons.mpr ⟨?_, h⟩
      intro b hb
      rcases List.mem_cons.mp hb with hb | hb
      · subst hb
        omega
      · have := hy b hb
        omega
    · rename_i hyx
      refine List.pairwise_cons.mpr ⟨?_, ih hys⟩
      intro b hb
      rcases (mem_insertScored x b ys).mp hb with hb | hb
      · subst hb
        omega
      · exact hy b hb

theorem sortScoredDesc_sorted (l : List (Int × IndexEntry)) :
    (sortScoredDesc l).Pairwise fun a b => b.1 ≤ a.1 := by
  induction l with
  | nil => simp [sortScoredDesc]
  | cons x xs ih => exact pairwise_insertScored x _ ih

theorem filter_insertScored (x : Int × IndexEntry) (l : List (Int × IndexEntry)) (v : Int) :
    (insertScored x l).filter (fun p => p.1 == v) =
      if x.1 = v then x :: l.filter (fun p => p.1 == v)
      else l.filter (fun p => p.1 == v) := by
  induction l with
  | nil =>
    rcases eq_or_ne x.1 v with hv | hv <;>
      simp [insertScored, List.filter_cons, hv]
  | cons y ys ih =>
    by_cases hyx : y.1 ≤ x.1
    · rw [insertScored, if_pos hyx]
      rcases eq_or_ne x.1 v with hv | hv <;>
        simp [List.filter_cons, hv]
    · rw [insertScored, if_neg hyx]
      rcases eq_or_ne x.1 v with hv | hv
      · have hy : y.1 ≠ v := by omega
        simp [List.filter_cons, hv, hy, ih]
      · simp [List.filter_cons, hv, ih]

theorem filter_sortScoredDesc (l : List (Int × IndexEntry)) (v : Int) :
    (sortScoredDesc l).filter (fun p => p.1 == v) = l.filter (fun p => p.1 == v) := by
  induction l with
  | nil => simp [sortScoredDesc]
  | cons x xs ih =>
    simp only [sortScoredDesc, filter_insertScored, ih]
    rcases eq_or_ne x.1 v with hv | hv <;>
      simp [List.filter_cons, hv]

/-! ## Lemmas about the two search branches -/

/-- The total score `search_index` assigns to entry `e` for `query`:
the uncached loop body, as a function of the original query. -/
def entryScore (query : String) (e : IndexEntry) : Int :=
  scoreName (strLower e.name) e (strLower query)
    ("-" ++ strLower query) ("_" ++ strLower query)

theorem searchScoredCached_map_eq_uncached (entries : List IndexEntry)
    (ql qd qu : String) :
    searchScoredCached entries (entries.map fun e => strLower e.name) ql qd qu =
      searchScoredUncached entries ql qd qu := by
  induction entries with
  | nil => simp [searchScoredCached, searchScoredUncached]
  | cons e rest ih =>
    simp only [searchScoredCached, searchScoredUncached, List.map_cons,
      List.zip_cons_cons, List.filterMap_cons] at *
    split <;> simp_all

theorem searchScoredUncached_eq_filter_map (entries : List IndexEntry)
    (ql qd qu : String) :
    searchScoredUncached entries ql qd qu =
      (entries.filter fun e => strContains (strLower e.name) ql).map
        fun e => (scoreName (strLower e.name) e ql qd qu, e) := by
  induction entries with
  | nil => simp [searchScoredUncached]
  | cons e rest ih =>
    simp only [searchScoredUncached, List.filterMap_cons, List.filter_cons] at *
    by_cases h : strContains (strLower e.name) ql = true <;> simp [h, ih]

theorem mem_searchScoredUncached (entries : List IndexEntry) (ql qd qu : String)
    (p : Int × IndexEntry) (hp : p ∈ searchScoredUncached entries ql qd qu) :
    p.2 ∈ entries ∧ strContains (strLower p.2.name) ql = true ∧
      p.1 = scoreName (strLower p.2.name) p.2 ql qd qu := by
  rw [searchScoredUncached_eq_filter_map] at hp
  rcases List.mem_map.mp hp with ⟨e, he, hpe⟩
  rcases List.mem_filter.mp he with ⟨hmem, hmatch⟩
  subst hpe
  exact ⟨hmem, hmatch, rfl⟩

/-- With a coherent lowercase table the dispatch takes the cached branch,
which computes the same scored list as the uncached one. -/
theorem searchScored_coherent (entries : List IndexEntry) (ql qd qu : String) :
    searchScored entries (entries.map fun e => strLower e.name) ql qd qu =
      searchScoredUncached entries ql qd qu := by
  rw [searchScored, if_pos (by simp)]
  exact searchScoredCached_map_eq_uncached entries ql qd qu

theorem search_index_coherent (entries : List IndexEntry) (query : String) :
    search_index entries (entries.map fun e => strLower e.name) query =
      if query.data.isEmpty then []
      else
        ((sortScoredDesc (searchScoredUncached entries (strLower query)
            ("-" ++ strLower query) ("_" ++ strLower query))).take 100).map
          Prod.snd := by
  rw [search_index]
  split
  · rfl
  · simp only [searchScored_coherent]

/-! ## Sample index data -/

def entryLog : IndexEntry :=
  { name := "log", path := "/home/u/log", is_directory := false, parent_folder := "u" }

def entryLogger : IndexEntry :=
  { name := "logger", path := "/home/u/logger", is_directory := false, parent_folder := "u" }

def entryAppLog : IndexEntry :=
  { name := "app-log", path := "/home/u/app-log", is_directory := false, parent_folder := "u" }

def entryCatalog : IndexEntry :=
  { name := "catalog", path := "/home/u/catalog", is_directory := false, parent_folder := "u" }

def logEntries : List IndexEntry := [entryLog, entryLogger, entryAppLog, entryCatalog]

def logLower : List String := logEntries.map fun e => strLower e.name

/-- A file entry whose 60-character name exceeds the 50 length cap. -/
def entryLongName : IndexEntry :=
  { name := ⟨List.replicate 60 'a'⟩, path := "/home/u/x", is_directory := false,
    parent_folder := "u" }

/-! ## Claims -/

/-- C1: for every query and every snapshot with its coherent precomputed
lowercase table (as every snapshot the program builds has — both
`index_directory` and `load_saved_index` push one lowercased name per
entry), `search_index` returns empty on the empty query, at most 100
entries, only entries whose lowercased name contains the lowercased
query, and entries ordered by non-increasing total score. -/
theorem search_index_contract (entries : List IndexEntry)
    (lower_names : List String) (query : String)
    (h : lower_names = entries.map fun e => strLower e.name) :
    (query = "" → search_index entries lower_names query = []) ∧
    (search_index entries lower_names query).length ≤ 100 ∧
    (∀ e ∈ search_index entries lower_names query,
      strContains (strLower e.name) (strLower query) = true) ∧
    (search_index entries lower_names query).Pairwise
      (fun a b => entryScore query b ≤ entryScore query a) := by
  subst h
  rw [search_index_coherent]
  by_cases hq : query.data.isEmpty = true
  · simp [hq]
  · rw [if_neg hq]
    refine ⟨?_, ?_, ?_, ?_⟩
    · intro hq0
      subst hq0
      exact absurd rfl hq
    · rw [List.length_map, List.length_take]
      exact min_le_left _ _
    · intro e he
      rcases List.mem_map.mp he with ⟨p, hp, hpe⟩
      have hp2 := (mem_sortScoredDesc p _).mp (List.mem_of_mem_take hp)
      have hp3 := mem_searchScoredUncached _ _ _ _ p hp2
      rw [← hpe]
      exact hp3.2.1
    · have hs := sortScoredDesc_sorted (searchScoredUncached entries
        (strLower query) ("-" ++ strLower query) ("_" ++ strLower query))
      have ht := List.Pairwise.sublist (List.take_sublist 100 _) hs
      refine List.pairwise_map.mpr (List.Pairwise.imp_of_mem ?_ ht)
      intro a b ha hb hab
      have ha2 := mem_searchScoredUncached _ _ _ _ a
        ((mem_sortScoredDesc a _).mp (List.mem_of_mem_take ha))
      have hb2 := mem_searchScoredUncached _ _ _ _ b
        ((mem_sortScoredDesc b _).mp (List.mem_of_mem_take hb))
      have hae : a.1 = entryScore query a.2 := ha2.2.2
      have hbe : b.1 = entryScore query b.2 := hb2.2.2
      omega

/-- C1 witness: the contract instantiated on a concrete snapshot with its
coherent table and the query `"log"`. -/
theorem search_index_contract_witness :
    (logLower = logEntries.map fun e => strLower e.name) ∧
    ((("log" : String) = "" → search_index logEntries logLower "log" = []) ∧
     (search_index logEntries logLower "log").length ≤ 100 ∧
     (∀ e ∈ search_index logEntries logLower "log",
       strContains (strLower e.name) (strLower "log") = true) ∧
     (search_index logEntries logLower "log").Pairwise
       (fun a b => entryScore "log" b ≤ entryScore "log" a)) :=
  ⟨rfl, search_index_contract logEntries logLower "log" rfl⟩

/-- C2: the score of a matching entry decomposes as exactly one of the
mutually exclusive tiers taken in priority order (1000 exact, else 500
starts-with, else 300 word-boundary, else 0), plus 200 for a directory,
plus the length reward `50 - min(len, 50)` (zero once the byte length of
the name reaches 50), plus 100 for a path containing `"/projects/"`. -/
theorem entryScore_formula (e : IndexEntry) (query : String) :
    entryScore query e =
      (if strLower e.name = strLower query then 1000
       else if strStartsWith (strLower e.name) (strLower query) = true then 500
       else if strContains (strLower e.name) ("-" ++ strLower query) = true ∨
              strContains (strLower e.name) ("_" ++ strLower query) = true then 300
       else 0)
      + (if e.is_directory = true then 200 else 0)
      + (50 - min (e.name.utf8ByteSize : Int) 50)
      + (if strContains e.path "/projects/" = true then 100 else 0) ∧
    (50 ≤ e.name.utf8ByteSize → 50 - min (e.name.utf8ByteSize : Int) 50 = 0) := by
  constructor
  · simp only [entryScore, scoreName, Bool.or_eq_true]
    split_ifs <;> omega
  · intro h
    omega

/-- C2 witness: the decomposition evaluated on a 60-character file name,
where the length reward has hit its zero floor. -/
theorem entryScore_formula_witness :
    50 ≤ entryLongName.name.utf8ByteSize ∧
    (entryScore "a" entryLongName =
      (if strLower entryLongName.name = strLower "a" then 1000
       else if strStartsWith (strLower entryLongName.name) (strLower "a") = true then 500
       else if strContains (strLower entryLongName.name) ("-" ++ strLower "a") = true ∨
              strContains (strLower entryLongName.name) ("_" ++ strLower "a") = true then 300
       else 0)
      + (if entryLongName.is_directory = true then 200 else 0)
      + (50 - min (entryLongName.name.utf8ByteSize : Int) 50)
      + (if strContains entryLongName.path "/projects/" = true then 100 else 0) ∧
     (50 ≤ entryLongName.name.utf8ByteSize →
       50 - min (entryLongName.name.utf8ByteSize : Int) 50 = 0)) :=
  ⟨by decide, entryScore_formula entryLongName "a"⟩

/-- C5 counterexample: for the query `"log"` on the four-file index
`log, logger, app-log, catalog`, `search_index` does NOT return the
order claimed by the spec (`log, app-log, logger, catalog`): the
prefix tier of `"logger"` (500) beats the word-boundary tier of
`"app-log"` (300). -/
theorem search_log_order_counterexample :
    search_index logEntries logLower "log" =
      [entryLog, entryLogger, entryAppLog, entryCatalog] ∧
    search_index logEntries logLower "log" ≠
      [entryLog, entryAppLog, entryLogger, entryCatalog] := by
  decide

/-- C5 amended: the same query on the same index yields the order
`log, logger, app-log, catalog` (scores 1047, 544, 343, 43). -/
theorem search_log_order_amended :
    (search_index logEntries logLower "log").map (fun e => e.name) =
      ["log", "logger", "app-log", "catalog"] := by
  decide

/-- C9: the cached branch of `search_index`, reading a lowercase table
holding exactly the lowercase of each entry name, produces the same
scored list as the uncached branch, and consequently `search_index`
with that table returns exactly the query-time-lowercasing result. -/
theorem search_lowercase_cache_equiv (entries : List IndexEntry)
    (ql qd qu query : String) :
    searchScoredCached entries (entries.map fun e => strLower e.name) ql qd qu =
      searchScoredUncached entries ql qd qu ∧
    search_index entries (entries.map fun e => strLower e.name) query =
      (if query.data.isEmpty then []
       else
         ((sortScoredDesc (searchScoredUncached entries (strLower query)
             ("-" ++ strLower query) ("_" ++ strLower query))).take 100).map
           Prod.snd) :=
  ⟨searchScoredCached_map_eq_uncached entries ql qd qu,
   search_index_coherent entries query⟩

/-- C10: `search_index` is a pure function of its snapshot and query
(determinism is immediate), the scored list it sorts enumerates the
matching entries in snapshot order, and the descending sort is stable:
restricted to any fixed score `v`, the sorted list coincides with the
unsorted scored list, so equal-score entries are returned in snapshot
order (`take 100` and `map` preserve relative order). -/
theorem search_ties_keep_snapshot_order (entries : List IndexEntry)
    (lower_names : List String) (ql qd qu : String) (v : Int) :
    (sortScoredDesc (searchScored entries lower_names ql qd qu)).filter
        (fun p => p.1 == v) =
      (searchScored entries lower_names ql qd qu).filter (fun p => p.1 == v) ∧
    searchScoredUncached entries ql qd qu =
      (entries.filter fun e => strContains (strLower e.name) ql).map
        (fun e => (scoreName (strLower e.name) e ql qd qu, e)) :=
  ⟨filter_sortScoredDesc _ v, searchScoredUncached_eq_filter_map entries ql qd qu⟩

/-- C4 (code bug): `start_indexing` sets `is_indexing` to `true` BEFORE
resolving the home directory (lib.rs lines 296-299 precede line 302), so
when the home directory is missing the command returns the descriptive
error and spawns no thread but leaves the flag `true`; every later
`start_indexing` call then takes the already-indexing early return
(lib.rs lines 288-293): it reports `Ok(())`, spawns nothing, and changes
nothing — scanning is permanently blocked, contradicting the spec. -/
theorem start_indexing_missing_home_blocks :
    start_indexing none AppState.init =
      (Except.error "Could not find home directory",
       { AppState.init with is_indexing := true }, false) ∧
    (start_indexing none AppState.init).2.1.is_indexing = true ∧
    start_indexing (some "/home/user") (start_indexing none AppState.init).2.1 =
      (Except.ok (), { AppState.init with is_indexing := true }, false) :=
  ⟨rfl, rfl, rfl⟩

/-- C8: on a missing, unreadable, or unparsable on-disk index file,
`load_saved_index` returns `false` and leaves the in-memory state
exactly as it was (so still empty when nothing was loaded before). -/
theorem load_saved_index_failure_inert (st : AppState) :
    load_saved_index DiskFile.missing st = (false, st) ∧
    load_saved_index DiskFile.unreadable st = (false, st) ∧
    load_saved_index DiskFile.corrupt st = (false, st) :=
  ⟨rfl, rfl, rfl⟩

/-! ## Lemmas about the traversal -/

theorem processChildren_entries_extend (p parent : String) (sh : Bool)
    (cs : List FsNode) (s : ScanState) :
    ∃ l, (processChildren p parent sh cs s).1.entries = s.entries ++ l := by
  induction cs generalizing s with
  | nil => exact ⟨[], by simp [processChildren]⟩
  | cons c rest ih =>
    have key : ∀ t : ScanState, (∃ l0, t.entries = s.entries ++ l0) →
        ∃ l, (processChildren p parent sh rest t).1.entries = s.entries ++ l := by
      intro t ht
      rcases ht with ⟨l0, ht⟩
      rcases ih t with ⟨l, hl⟩
      exact ⟨l0 ++ l, by rw [hl, ht, List.append_assoc]⟩
    cases c with
    | file n =>
      simp only [processChildren, FsNode.name, FsNode.isDir]
      split
      · exact key s ⟨[], by simp⟩
      · apply key
        split <;> exact ⟨_, rfl⟩
    | dir n cs2 =>
      simp only [processChildren, FsNode.name, FsNode.isDir]
      split
      · exact key s ⟨[], by simp⟩
      · split
        · apply key
          split <;> exact ⟨_, rfl⟩
        · apply key
          split <;> exact ⟨_, rfl⟩

theorem indexLoop_entries_extend (sh : Bool) (wl : List (String × List FsNode))
    (s : ScanState) :
    ∃ l, (indexLoop sh wl s).entries = s.entries ++ l := by
  induction wl, s using indexLoop.induct sh with
  | case1 s => exact ⟨[], by rw [indexLoop]; simp⟩
  | case2 path children rest s parent s1 pr s2 s3 ih =>
    rw [indexLoop]
    rcases ih with ⟨l, hl⟩
    rw [hl]
    rcases processChildren_entries_extend path parent sh children s1 with ⟨l0, h0⟩
    refine ⟨l0 ++ l, ?_⟩
    have h3 : s3.entries = pr.1.entries := rfl
    rw [h3, h0]
    simp [s1]

/-- The path obtained from `root` by appending the components `comps`
with the traversal's separator. -/
def pathFrom (root : String) (comps : List String) : String :=
  comps.foldl (fun a c => a ++ "/" ++ c) root

/-- `p` lies strictly below `root` and every path component between
`root` and `p` (the final one included) is non-hidden: no descendant of a
dot-directory has such a path. -/
def hiddenFree (root p : String) : Prop :=
  ∃ comps, comps ≠ [] ∧ (∀ c ∈ comps, strStartsWith c "." = false) ∧
    p = pathFrom root comps

/-- A directory path the scan may visit: the root itself or a
hidden-free descendant. -/
def GoodDir (root p : String) : Prop := p = root ∨ hiddenFree root p

theorem pathFrom_concat (root : String) (xs : List String) (y : String) :
    pathFrom root (xs ++ [y]) = pathFrom root xs ++ "/" ++ y := by
  simp [pathFrom, List.foldl_append]

theorem hiddenFree_step (root p n : String) (hg : GoodDir root p)
    (hn : strStartsWith n "." = false) : hiddenFree root (p ++ "/" ++ n) := by
  rcases hg with h | ⟨comps, hne, hall, hp⟩
  · subst h
    exact ⟨[n], by simp, by simpa using hn, by simp [pathFrom]⟩
  · refine ⟨comps ++ [n], by simp, ?_, by rw [hp, pathFrom_concat]⟩
    intro c hc
    rcases List.mem_append.mp hc with hc | hc
    · exact hall c hc
    · rw [List.mem_singleton.mp hc]
      exact hn

theorem processChildren_entries_hidden (root p parent : String)
    (children : List FsNode) (s : ScanState) (hg : GoodDir root p) :
    ∀ e ∈ (processChildren p parent true children s).1.entries,
      e ∈ s.entries ∨
        (strStartsWith e.name "." = false ∧ hiddenFree root e.path) := by
  induction children generalizing s with
  | nil =>
    intro e he
    exact Or.inl he
  | cons c rest ih =>
    have key : ∀ t : ScanState,
        (∀ e ∈ t.entries, e ∈ s.entries ∨
          (strStartsWith e.name "." = false ∧ hiddenFree root e.path)) →
        ∀ e ∈ (processChildren p parent true rest t).1.entries,
          e ∈ s.entries ∨
            (strStartsWith e.name "." = false ∧ hiddenFree root e.path) := by
      intro t ht e he
      rcases ih t e he with h | h
      · exact ht e h
      · exact Or.inr h
    have hpush : ∀ (nm : String) (b : Bool),
        strStartsWith nm "." = false →
        ∀ e ∈ (({ s with
            entries := s.entries ++
              [{ name := nm, path := p ++ "/" ++ nm, is_directory := b,
                 parent_folder := parent }],
            lower_names := s.lower_names ++ [strLower nm] } : ScanState)).entries,
          e ∈ s.entries ∨
            (strStartsWith e.name "." = false ∧ hiddenFree root e.path) := by
      intro nm b hnm e he
      rcases List.mem_append.mp he with h | h
      · exact Or.inl h
      · rw [List.mem_singleton.mp h]
        exact Or.inr ⟨hnm, hiddenFree_step root p nm hg hnm⟩
    cases c with
    | file n =>
      simp only [processChildren, FsNode.name, FsNode.isDir]
      split
      · exact key s fun e he => Or.inl he
      · rename_i hskip
        have hn : strStartsWith n "." = false := by
          simpa using hskip
        apply key
        intro e he
        have he2 : e ∈ (({ s with
            entries := s.entries ++
              [{ name := n, path := p ++ "/" ++ n, is_directory := false,
                 parent_folder := parent }],
            lower_names := s.lower_names ++ [strLower n] } : ScanState)).entries := by
          revert he
          split <;> exact fun h => h
        exact hpush n false hn e he2
    | dir n cs2 =>
      simp only [processChildren, FsNode.name, FsNode.isDir]
      split
      · exact key s fun e he => Or.inl he
      · rename_i hskip
        have hn : strStartsWith n "." = false := by
          simpa using hskip
        have hmem : ∀ t : ScanState,
            t.entries = s.entries ++
              [{ name := n, path := p ++ "/" ++ n, is_directory := true,
                 parent_folder := parent }] →
            ∀ e ∈ (processChildren p parent true rest t).1.entries,
              e ∈ s.entries ∨
                (strStartsWith e.name "." = false ∧ hiddenFree root e.path) := by
          intro t ht
          apply key
          intro e he
          rw [ht] at he
          exact hpush n true hn e he
        split
        · apply hmem
          split <;> rfl
        · apply hmem
          split <;> rfl

theorem processChildren_subdirs_hidden (root p parent : String)
    (children : List FsNode) (s : ScanState) (hg : GoodDir root p) :
    ∀ q ∈ (processChildren p parent true children s).2, hiddenFree root q.1 := by
  induction children generalizing s with
  | nil =>
    intro q hq
    simp [processChildren] at hq
  | cons c rest ih =>
    cases c with
    | file n =>
      simp only [processChildren, FsNode.name, FsNode.isDir]
      split
      · exact ih s
      · exact ih _
    | dir n cs2 =>
      simp only [processChildren, FsNode.name, FsNode.isDir]
      split
      · exact ih s
      · rename_i hskip
        have hn : strStartsWith n "." = false := by
          simpa using hskip
        split
        · exact ih _
        · intro q hq
          rcases List.mem_cons.mp hq with h | h
          · rw [h]
            exact hiddenFree_step root p n hg hn
          · exact ih _ q h

theorem indexLoop_entries_hidden (root : String)
    (wl : List (String × List FsNode)) (s : ScanState) :
    (∀ q ∈ wl, GoodDir root q.1) →
    (∀ e ∈ s.entries, strStartsWith e.name "." = false ∧ hiddenFree root e.path) →
    ∀ e ∈ (indexLoop true wl s).entries,
      strStartsWith e.name "." = false ∧ hiddenFree root e.path := by
  induction wl, s using indexLoop.induct true with
  | case1 s =>
    intro _ hs e he
    rw [indexLoop] at he
    exact hs e he
  | case2 path children rest s parent s1 pr s2 s3 ih =>
    intro hw hs e he
    rw [indexLoop] at he
    have hg : GoodDir root path := hw (path, children) (List.mem_cons_self _ _)
    refine ih ?_ ?_ e he
    · intro q hq
      rcases List.mem_append.mp hq with h | h
      · exact Or.inr (processChildren_subdirs_hidden root path parent children s1 hg q h)
      · exact hw q (List.mem_cons_of_mem _ h)
    · intro e2 he2
      have he3 : e2 ∈ pr.1.entries := he2
      rcases processChildren_entries_hidden root path parent children s1 hg e2 he3 with h | h
      · exact hs e2 h
      · exact h

/-- A small synthetic filesystem with a hidden subtree. -/
def sampleTree : List FsNode :=
  [FsNode.dir ".hidden" [FsNode.file "secret"],
   FsNode.file "a.txt",
   FsNode.dir "proj" [FsNode.file "b.txt"]]

/-- The fresh scan state of `start_indexing`: empty buffers. -/
def emptyScan : ScanState :=
  { entries := [], lower_names := [], progress := IndexProgress.init }

/-- C6: a scan with `skip_hidden = true` started on empty buffers
produces no entry whose name begins with a dot, and every produced
entry's path decomposes as the root followed only by non-hidden
components — in particular no descendant of a hidden directory ever
appears, since its path would need a dotted component. -/
theorem scan_skips_hidden (root : String) (children : List FsNode)
    (s : ScanState) (h : s.entries = []) :
    ∀ e ∈ (index_directory root children true s).entries,
      strStartsWith e.name "." = false ∧ hiddenFree root e.path := by
  intro e he
  rw [index_directory] at he
  refine indexLoop_entries_hidden root [(root, children)] s ?_ ?_ e he
  · intro q hq
    rw [List.mem_singleton.mp hq]
    exact Or.inl rfl
  · rw [h]
    intro e2 he2
    cases he2

/-- The entry the sample scan produces for `a.txt`. -/
def entryATxt : IndexEntry :=
  { name := "a.txt", path := "/home/u/a.txt", is_directory := false,
    parent_folder := "u" }

/-- C6 witness: the scan of `sampleTree` contains the `a.txt` entry, and
the theorem instantiates on it. -/
theorem scan_skips_hidden_witness :
    emptyScan.entries = [] ∧
    (strStartsWith entryATxt.name "." = false ∧
      hiddenFree "/home/u" entryATxt.path) :=
  ⟨rfl,
   scan_skips_hidden "/home/u" sampleTree emptyScan rfl entryATxt
     (by simp +decide [index_directory, indexLoop, processChildren, sampleTree,
       emptyScan, entryATxt, FsNode.name, FsNode.isDir, excludedNames,
       baseNameOr, revBaseChars, strLower, strStartsWith, IndexProgress.init])⟩

mutual
/-- Empty out the listing of every excluded-named directory in a node,
leaving the node itself (its entry is still emitted) intact. -/
def dropExclContents : FsNode → FsNode
  | .file n => .file n
  | .dir n cs =>
    .dir n (if excludedNames.contains n then [] else dropExclContentsList cs)
/-- `dropExclContents` over a listing. -/
def dropExclContentsList : List FsNode → List FsNode
  | [] => []
  | c :: cs => dropExclContents c :: dropExclContentsList cs
end

theorem dropExclContents_name (c : FsNode) :
    (dropExclContents c).name = c.name := by
  cases c <;> simp [dropExclContents, FsNode.name]

theorem dropExclContents_isDir (c : FsNode) :
    (dropExclContents c).isDir = c.isDir := by
  cases c <;> simp [dropExclContents, FsNode.isDir]

theorem processChildren_dropExcl (p parent : String) (sh : Bool)
    (cs : List FsNode) (s : ScanState) :
    (processChildren p parent sh (dropExclContentsList cs) s).1 =
      (processChildren p parent sh cs s).1 ∧
    (processChildren p parent sh (dropExclContentsList cs) s).2 =
      (processChildren p parent sh cs s).2.map
        fun q => (q.1, dropExclContentsList q.2) := by
  induction cs generalizing s with
  | nil => simp [dropExclContentsList, processChildren]
  | cons c rest ih =>
    cases c with
    | file n =>
      simp only [dropExclContentsList, dropExclContents, processChildren,
        FsNode.name, FsNode.isDir]
      split
      · exact ih s
      · exact ih _
    | dir n cs2 =>
      by_cases hex : excludedNames.contains n = true
      · simp only [dropExclContentsList, dropExclContents, hex, if_true,
          processChildren, FsNode.name, FsNode.isDir]
        split
        · exact ih s
        · exact ih _
      · simp only [dropExclContentsList, dropExclContents, hex, if_false,
          Bool.false_eq_true, processChildren, FsNode.name, FsNode.isDir]
        split
        · exact ih s
        · refine ⟨(ih _).1, ?_⟩
          simp only [List.map_cons]
          rw [(ih _).2]

theorem indexLoop_dropExcl (sh : Bool) (wl : List (String × List FsNode))
    (s : ScanState) :
    indexLoop sh (wl.map fun q => (q.1, dropExclContentsList q.2)) s =
      indexLoop sh wl s := by
  induction wl, s using indexLoop.induct sh with
  | case1 s => rfl
  | case2 path children rest s parent s1 pr s2 s3 ih =>
    conv_rhs => rw [indexLoop]
    rw [List.map_cons, indexLoop]
    rcases processChildren_dropExcl path parent sh children s1 with ⟨h1, h2⟩
    rw [h1, h2, ← List.map_append]
    exact ih

theorem processChildren_produces (p parent : String) (sh : Bool)
    (cs : List FsNode) (s : ScanState) (nm : String) (cs2 : List FsNode)
    (hmem : FsNode.dir nm cs2 ∈ cs)
    (hhid : sh = true → strStartsWith nm "." = false) :
    ({ name := nm, path := p ++ "/" ++ nm, is_directory := true,
       parent_folder := parent } : IndexEntry) ∈
      (processChildren p parent sh cs s).1.entries := by
  induction cs generalizing s with
  | nil => cases hmem
  | cons c rest ih =>
    rcases List.mem_cons.mp hmem with h | h
    · subst h
      simp only [processChildren, FsNode.name, FsNode.isDir]
      have hcond : (sh && strStartsWith nm ".") = false := by
        cases sh
        · rfl
        · simp [hhid rfl]
      rw [if_neg (by simp [hcond])]
      have key : ∀ t : ScanState,
          t.entries = s.entries ++
            [{ name := nm, path := p ++ "/" ++ nm, is_directory := true,
               parent_folder := parent }] →
          ({ name := nm, path := p ++ "/" ++ nm, is_directory := true,
             parent_folder := parent } : IndexEntry) ∈
            (processChildren p parent sh rest t).1.entries := by
        intro t ht
        rcases processChildren_entries_extend p parent sh rest t with ⟨l, hl⟩
        rw [hl, ht]
        simp
      split
      · apply key
        split <;> rfl
      · apply key
        split <;> rfl
    · cases c with
      | file n =>
        simp only [processChildren, FsNode.name, FsNode.isDir]
        split
        · exact ih s h
        · exact ih _ h
      | dir n ncs =>
        simp only [processChildren, FsNode.name, FsNode.isDir]
        split
        · exact ih s h
        · split
          · exact ih _ h
          · exact ih _ h

theorem indexLoop_entries_monotone (sh : Bool) (wl : List (String × List FsNode))
    (t : ScanState) (e : IndexEntry) (he : e ∈ t.entries) :
    e ∈ (indexLoop sh wl t).entries := by
  rcases indexLoop_entries_extend sh wl t with ⟨l, hl⟩
  rw [hl]
  exact List.mem_append_left _ he

/-- A small synthetic filesystem with an excluded directory. -/
def exclTree : List FsNode :=
  [FsNode.dir "node_modules" [FsNode.file "dep"], FsNode.file "a.txt"]

/-- The entry a scan from `/home/u` emits for the `node_modules` child. -/
def entryNodeModules : IndexEntry :=
  { name := "node_modules", path := "/home/u/node_modules",
    is_directory := true, parent_folder := "u" }

/-- A tree with a dotted excluded directory under the scan root. -/
def gitTree : List FsNode :=
  [FsNode.dir ".git" [FsNode.file "HEAD"], FsNode.file "a.txt"]

/-- C7 counterexample: not every excluded-named directory produces an
entry for itself.  The hidden check (lib.rs line 237) runs before the
exclusion check (lib.rs line 262), so with `skip_hidden = true` (as the
program always scans, lib.rs line 352) a `.git` child of the visited
root is dropped entirely: the scan yields only the `a.txt` entry and no
`.git` entry, refuting the claim for the dotted members of the
exclusion list (`.git`, `.next`, `.venv`, `.Trash`). -/
theorem excluded_git_no_entry_counterexample :
    excludedNames.contains ".git" = true ∧
    (index_directory "/home/u" gitTree true emptyScan).entries =
      [entryATxt] ∧
    ({ name := ".git", path := "/home/u/.git", is_directory := true,
       parent_folder := "u" } : IndexEntry) ∉
      (index_directory "/home/u" gitTree true emptyScan).entries := by
  refine ⟨by decide, ?_, ?_⟩ <;>
    simp +decide [index_directory, indexLoop, processChildren, gitTree,
      emptyScan, entryATxt, FsNode.name, FsNode.isDir, excludedNames,
      baseNameOr, revBaseChars, strLower, strStartsWith,
      IndexProgress.init]

/-- C7 as amended: excluded directories that survive the hidden filter
are catalogued but never descended into.
First conjunct: the scan result is unchanged when the listing of every
excluded-named directory is emptied out (`dropExclContentsList`), i.e.
the contents of excluded directories are never visited and contribute no
descendant entries — this holds for every excluded directory, dotted or
not.  Second conjunct: a directory child whose name is in the exclusion
list, and which the hidden filter does not drop (under `skip_hidden` its
name must not begin with a dot — see the counterexample for why this
guard is forced), still gets its own entry; as the statement holds for
every `p`, `children`, `s`, it applies at every directory the scan
visits, i.e. whenever the parent was visited. -/
theorem excluded_dirs_contract (p : String) (children : List FsNode)
    (sh : Bool) (s : ScanState) :
    index_directory p (dropExclContentsList children) sh s =
      index_directory p children sh s ∧
    ∀ nm cs2, FsNode.dir nm cs2 ∈ children →
      (sh = true → strStartsWith nm "." = false) →
      excludedNames.contains nm = true →
      ({ name := nm, path := p ++ "/" ++ nm, is_directory := true,
         parent_folder := baseNameOr p } : IndexEntry) ∈
        (index_directory p children sh s).entries := by
  constructor
  · rw [index_directory, index_directory]
    exact indexLoop_dropExcl sh [(p, children)] s
  · intro nm cs2 hmem hhid _
    rw [index_directory, indexLoop]
    apply indexLoop_entries_monotone
    exact processChildren_produces p (baseNameOr p) sh children
      { s with progress := { s.progress with current_folder := p } }
      nm cs2 hmem hhid

/-- C7 witness: instantiated on a scan of `exclTree` from `/home/u`. -/
theorem excluded_dirs_contract_witness :
    (FsNode.dir "node_modules" [FsNode.file "dep"] ∈ exclTree) ∧
    excludedNames.contains "node_modules" = true ∧
    entryNodeModules ∈
      (index_directory "/home/u" exclTree true emptyScan).entries ∧
    index_directory "/home/u" (dropExclContentsList exclTree) true emptyScan =
      index_directory "/home/u" exclTree true emptyScan :=
  ⟨by simp [exclTree],
   by decide,
   (excluded_dirs_contract "/home/u" exclTree true emptyScan).2
     "node_modules" [FsNode.file "dep"] (by simp [exclTree])
     (fun _ => by decide) (by decide),
   (excluded_dirs_contract "/home/u" exclTree true emptyScan).1⟩
